import Mathlib

/-!
Verification of `command_runner` (src/command_runner/command_runner.py).

Shallow embedding conventions:
* Instants are `Nat` — seconds since an epoch that falls on a Monday
  at 00:00, so `weekday t = t / 86400 % 7` matches Python's
  `datetime.weekday()` (0 = Monday) and `dayStart` matches
  `datetime.combine(now, t)`'s use of the current date.
* Python exceptions (IndexError from `self.active[day]`, ValueError from
  `strptime`/`int`, `list.remove` on a missing value, OSError from a failed
  shell launch) are modelled as `none` / `Except.error`.
* `is_active_now` reads the wall clock five times in the source
  (`datetime.now()` on lines 104, 106, 110, 114, 121); the embedding takes
  the five readings `t1 .. t5` as explicit parameters, in call order.
* The subprocess outcome of a command is an oracle parameter `CmdResult`;
  `subprocessRun` reproduces `subprocess.run`'s raising behaviour as a
  function of the `check` flag.
-/

namespace CommandRunner

/-- The source's `DATES` list: canonical two-letter weekday abbreviations,
Monday first. -/
def DATES : List String := ["mo", "tu", "we", "th", "fr", "sa", "su"]

/-- Python's `date_string[y : y + 2]` at `y = 2 * i`: the two-character slice
of `s` starting at character `2 * i` (shorter at the end of the string). -/
def chunk2 (s : String) (i : Nat) : String :=
  String.mk ((s.toList.drop (2 * i)).take 2)

/-- Model of `Days.__post_init__`: splits `date_string` into two-character chunks
(`temp`, one per `y in range(0, len, 2)`, so `(len + 1) / 2` of them) and
compares chunk `i` with `DATES[i]`.  When there are more chunks than `DATES`
entries (pattern longer than 14 characters) the Python comprehension raises
IndexError at `DATES[index]`, modelled as `none`. -/
def mkDays (date_string : String) : Option (List Bool) :=
  let temp := (List.range ((date_string.length + 1) / 2)).map (chunk2 date_string)
  if temp.length ≤ DATES.length then
    some ((List.range temp.length).map (fun i => temp.getD i "" == DATES.getD i ""))
  else
    none

/-- Model of `Days.is_active_on`: `self.active[day]`, an IndexError (modelled `none`)
when `day` is outside the parsed mask. -/
def is_active_on (active : List Bool) (day : Nat) : Option Bool :=
  active[day]?

/-- The `Task` dataclass.  `day_bools` is omitted: the source sets it to
`Days(self.days)` in `__post_init__`, so it is determined by `days` and is
recomputed where needed (`mkDays`).  `last_execution` starts as `None` and is
only ever set by `run_task`. -/
structure Task where
  command : String
  owner : String
  days : String
  time_start : String
  time_end : String
  reload_time : String
  last_execution : Option Nat
deriving DecidableEq, Repr

/-- Model of `Task.__eq__`: compares the six definitional fields and ignores
`last_execution` (and the derived `day_bools`). -/
def taskEq (a b : Task) : Bool :=
  a.command == b.command
    && a.owner == b.owner
    && a.days == b.days
    && a.time_start == b.time_start
    && a.time_end == b.time_end
    && a.reload_time == b.reload_time

/-- Digit string to number (used by the `strptime` / `int` models). -/
def digitsToNat (ds : List Char) : Nat :=
  ds.foldl (fun a c => a * 10 + (c.toNat - 48)) 0

/-- Split a character list at every occurrence of `c` (what `str.split(':')`
does to the underlying characters). -/
def splitOnChar (c : Char) : List Char → List (List Char)
  | [] => [[]]
  | x :: xs =>
    match splitOnChar c xs with
    | [] => if x == c then [[], []] else [[x]]
    | y :: ys => if x == c then [] :: y :: ys else (x :: y) :: ys

/-- Model of `time.strptime(s, "%H:%M")`: one or two digits for the hour (0..23), a
colon, one or two digits for the minute (0..59), nothing else; any other
input raises ValueError (modelled `none`). -/
def parseHM (s : String) : Option (Nat × Nat) :=
  match splitOnChar ':' s.toList with
  | [h, m] =>
    if 1 ≤ h.length && h.length ≤ 2 && h.all Char.isDigit
        && 1 ≤ m.length && m.length ≤ 2 && m.all Char.isDigit then
      let hv := digitsToNat h
      let mv := digitsToNat m
      if hv ≤ 23 && mv ≤ 59 then some (hv, mv) else none
    else
      none
  | _ => none

/-- Python `int(s)` on the characters of `s`: an optional sign followed by at
least one digit; anything else raises ValueError (modelled `none`). -/
def pyInt (s : List Char) : Option Int :=
  match s with
  | [] => none
  | '-' :: ds =>
    if ds ≠ [] ∧ ds.all Char.isDigit then some (-(digitsToNat ds : Int)) else none
  | '+' :: ds =>
    if ds ≠ [] ∧ ds.all Char.isDigit then some (digitsToNat ds : Int) else none
  | ds =>
    if ds.all Char.isDigit then some (digitsToNat ds : Int) else none

/-- Model of `str.partition(":")` on the characters: everything before the first
colon, and (when a colon exists) everything after it. -/
def partitionColon : List Char → List Char × Option (List Char)
  | [] => ([], none)
  | x :: xs =>
    if x == ':' then ([], some xs)
    else
      let r := partitionColon xs
      (x :: r.1, r.2)

/-- Model of `Task.reload_timedelta` in seconds: `reload_time.partition(":")` splits at
the first colon (everything after it is the minutes string), then
`timedelta(hours=int(h), minutes=int(m))`.  A missing colon leaves the
minutes string empty and `int("")` raises (modelled `none`). -/
def reloadSeconds (s : String) : Option Int :=
  match partitionColon s.toList with
  | (_, none) => none
  | (h, some m) => do
    let hv ← pyInt h
    let mv ← pyInt m
    some (hv * 3600 + mv * 60)

/-- The `datetime.weekday()` of instant `t` (epoch is a Monday, 0 = Monday). -/
def weekday (t : Nat) : Nat := t / 86400 % 7

/-- Midnight of the calendar day holding instant `t`; `datetime.combine`
with a clock time `h:m` yields `dayStart t + h * 3600 + m * 60`. -/
def dayStart (t : Nat) : Nat := t / 86400 * 86400

/-- Model of `Task.is_active_now`.  `t1 .. t5` are the five `datetime.now()` readings
in source order: `current_time` (weekday check), the `combine` date for
`interval_start_time`, the `combine` date for `interval_end_time`, the
cooldown comparison (read only if `last_execution` is set), and the window
comparison.  Parse failures and the IndexError of `is_active_on` on a short
mask are `none`. -/
def is_active_now (task : Task) (t1 t2 t3 t4 t5 : Nat) : Option Bool := do
  let mask ← mkDays task.days
  let s ← parseHM task.time_start
  let e ← parseHM task.time_end
  let interval_start_time := dayStart t2 + (s.1 * 3600 + s.2 * 60)
  let interval_end_time := dayStart t3 + (e.1 * 3600 + e.2 * 60)
  let outside_reload_time ←
    (match task.last_execution with
      | some le => (reloadSeconds task.reload_time).map
          (fun c => decide (c < (t4 : Int) - (le : Int)))
      | none => some true)
  let dayOK ← is_active_on mask (weekday t1)
  return (dayOK && decide (interval_start_time < t5)
    && decide (t5 < interval_end_time) && outside_reload_time)

example : mkDays "--------------" = some [false, false, false, false, false, false, false] := by decide
example : mkDays "mo--we--frsasu" = some [true, false, true, false, true, true, true] := by decide
example : mkDays "mo" = some [true] := by decide
example : is_active_now ⟨"ls", "zt", "motuwethfrsasu", "00:00", "23:59", "06:00", none⟩
    43200 43200 43200 43200 43200 = some true := by decide
example : is_active_now ⟨"ls", "zt", "motuwethfrsasu", "00:00", "00:01", "06:00", none⟩
    0 0 0 0 0 = some false := by decide
example : is_active_now ⟨"ls", "zt", "mo", "00:00", "23:59", "00:00", none⟩
    129600 129600 129600 129600 129600 = none := by decide

/-- Outcome of an attempt by the operating system to run a shell command:
either the shell itself could not be invoked (Python: `subprocess.run`
raises OSError / FileNotFoundError), or the command ran to completion with
an exit status and captured output. -/
inductive CmdResult where
  | launchFailure
  | completed (exitCode : Int) (stdout stderr : String)
deriving DecidableEq, Repr

/-- Exceptions `subprocess.run` can raise. -/
inductive SubprocessError where
  | osError
  | calledProcessError
deriving DecidableEq, Repr

/-- Model of `subprocess.CompletedProcess` (the fields the program looks at). -/
structure CompletedProcess where
  returncode : Int
  stdout : String
  stderr : String
deriving DecidableEq, Repr

/-- Model of `subprocess.run(cmd, capture_output=True, shell=True, check=check)` as a
function of the oracle outcome: a launch failure raises OSError; with
`check=True` a non-zero exit raises CalledProcessError, with `check=False`
it is returned normally. -/
def subprocessRun (check : Bool) (res : CmdResult) :
    Except SubprocessError CompletedProcess :=
  match res with
  | .launchFailure => .error .osError
  | .completed code out err =>
    if check && code != 0 then .error .calledProcessError
    else .ok ⟨code, out, err⟩

/-- Model of `run_task`: runs `task.command` through `subprocess.run` with
`check=False`, then stamps `last_execution` with the completion instant
`execT` and returns the task.  If `subprocess.run` raises, the exception
propagates out of `run_task` and `last_execution` is never assigned. -/
def run_task (task : Task) (res : CmdResult) (execT : Nat) :
    Except SubprocessError Task :=
  match subprocessRun false res with
  | .error e => .error e
  | .ok _ => .ok { task with last_execution := some execT }

/-- Python `list.remove(v)`: deletes the first element `x` with `x == v`
(here `taskEq x v`), raising ValueError (modelled `none`) when no element
matches. -/
def pyRemove : List Task → Task → Option (List Task)
  | [], _ => none
  | x :: xs, v =>
    if taskEq x v then some xs
    else (pyRemove xs v).map (x :: ·)

/-- The Reconcile phase of `Runner.run`: for each updated task in order,
`self.tasks.remove(task)` then `self.tasks.append(task)`.  A failed
`remove` raises, crashing the loop (modelled `none`). -/
def reconcile : List Task → List Task → Option (List Task)
  | l, [] => some l
  | l, u :: us =>
    match pyRemove l u with
    | none => none
    | some m => reconcile (m ++ [u]) us

/-- The Select phase: `[task for task in self.tasks if task.is_active_now()]`
with all clock readings taken at the single reference instant `now`.  Any
exception inside `is_active_now` aborts the whole comprehension
(modelled `none`). -/
def selectActive : List Task → Nat → Option (List Task)
  | [], _ => some []
  | t :: ts, now => do
    let b ← is_active_now t now now now now now
    let rest ← selectActive ts now
    return (if b then t :: rest else rest)

/-- The Dispatch phase: `pool.map(run_task, tasks)` — the updated tasks in
input order; if any worker raises, `pool.map` re-raises the exception in the
coordinating loop (modelled `none`).  `res` gives each task's subprocess
outcome and `execOf` the instant its execution completes. -/
def dispatch : List Task → (Task → CmdResult) → (Task → Nat) → Option (List Task)
  | [], _, _ => some []
  | t :: ts, res, execOf => do
    let u ← (run_task t (res t) (execOf t)).toOption
    let rest ← dispatch ts res execOf
    return (u :: rest)

/-- One Select → Dispatch → Reconcile cycle of `Runner.run` over the master
task list; `none` means an uncaught exception crashed the loop. -/
def cycle (tasks : List Task) (now : Nat) (res : Task → CmdResult)
    (execOf : Task → Nat) : Option (List Task) := do
  let act ← selectActive tasks now
  let upd ← dispatch act res execOf
  reconcile tasks upd

/-- Number of records in `l` that the program considers "the same task" as
`t` (equal under `Task.__eq__`). -/
def countEq (l : List Task) (t : Task) : Nat :=
  (l.filter (fun x => taskEq x t)).length

/-- The spec's single-instant activation predicate (§4.2): day-of-week mask
at `now.weekday()`, strict window comparison `windowStartInstant < now <
windowEndInstant` with both window instants built from `now`'s date, and
`outsideCooldown` (`lastExecution` absent or `now - lastExecution >
cooldown`), all evaluated at the one reference instant `now`. -/
def activeSpec (task : Task) (now : Nat) : Option Bool := do
  let mask ← mkDays task.days
  let dayOK ← is_active_on mask (weekday now)
  let s ← parseHM task.time_start
  let e ← parseHM task.time_end
  let windowStartInstant := dayStart now + (s.1 * 3600 + s.2 * 60)
  let windowEndInstant := dayStart now + (e.1 * 3600 + e.2 * 60)
  let outsideCooldown ←
    (match task.last_execution with
      | some le => (reloadSeconds task.reload_time).map
          (fun c => decide (c < (now : Int) - (le : Int)))
      | none => some true)
  return (dayOK
    && (decide (windowStartInstant < now) && decide (now < windowEndInstant))
    && outsideCooldown)

/-! ### Helper lemmas -/

lemma taskEq_refl (a : Task) : taskEq a a = true := by
  simp [taskEq]

lemma taskEq_iff (a b : Task) :
    taskEq a b = true ↔
      a.command = b.command ∧ a.owner = b.owner ∧ a.days = b.days ∧
      a.time_start = b.time_start ∧ a.time_end = b.time_end ∧
      a.reload_time = b.reload_time := by
  simp [taskEq, Bool.and_eq_true, and_assoc]

lemma taskEq_symm {a b : Task} (h : taskEq a b = true) : taskEq b a = true := by
  rw [taskEq_iff] at h ⊢
  obtain ⟨h1, h2, h3, h4, h5, h6⟩ := h
  exact ⟨h1.symm, h2.symm, h3.symm, h4.symm, h5.symm, h6.symm⟩

lemma taskEq_trans {a b c : Task} (hab : taskEq a b = true)
    (hbc : taskEq b c = true) : taskEq a c = true := by
  rw [taskEq_iff] at hab hbc ⊢
  obtain ⟨h1, h2, h3, h4, h5, h6⟩ := hab
  obtain ⟨g1, g2, g3, g4, g5, g6⟩ := hbc
  exact ⟨h1.trans g1, h2.trans g2, h3.trans g3, h4.trans g4, h5.trans g5,
    h6.trans g6⟩

/-- The relation `taskEq` ignores `last_execution` (definitional). -/
lemma taskEq_set_last (x y : Task) (e : Option Nat) :
    taskEq { x with last_execution := e } y = taskEq x y := rfl

lemma taskEq_eqv {u v : Task} (h : taskEq u v = true) (x : Task) :
    taskEq x u = taskEq x v := by
  by_cases hx : taskEq x u = true
  · rw [hx, (taskEq_trans hx h).symm]
  · by_cases hy : taskEq x v = true
    · exact absurd (taskEq_trans hy (taskEq_symm h)) hx
    · rw [Bool.not_eq_true] at hx hy
      rw [hx, hy]

lemma taskEq_eqv_left {u v : Task} (h : taskEq u v = true) (t : Task) :
    taskEq u t = taskEq v t := by
  by_cases hx : taskEq u t = true
  · rw [hx, (taskEq_trans (taskEq_symm h) hx).symm]
  · by_cases hy : taskEq v t = true
    · exact absurd (taskEq_trans h hy) hx
    · rw [Bool.not_eq_true] at hx hy
      rw [hx, hy]

lemma countEq_nil (t : Task) : countEq [] t = 0 := rfl

lemma countEq_cons (x : Task) (l : List Task) (t : Task) :
    countEq (x :: l) t = (if taskEq x t then 1 else 0) + countEq l t := by
  by_cases h : taskEq x t <;> simp [countEq, List.filter_cons, h, Nat.add_comm]

lemma countEq_append (l₁ l₂ : List Task) (t : Task) :
    countEq (l₁ ++ l₂) t = countEq l₁ t + countEq l₂ t := by
  simp [countEq, List.filter_append]

lemma countEq_congr {u v : Task} (h : taskEq u v = true) (l : List Task) :
    countEq l u = countEq l v := by
  unfold countEq
  rw [List.filter_congr (fun x _ => taskEq_eqv h x)]

lemma one_le_countEq_of_mem {l : List Task} {t x : Task} (hx : x ∈ l)
    (hpx : taskEq x t = true) : 1 ≤ countEq l t := by
  have hm : x ∈ l.filter (fun y => taskEq y t) := List.mem_filter.mpr ⟨hx, hpx⟩
  exact List.length_pos.mpr (List.ne_nil_of_mem hm)

lemma countEq_zero_iff (l : List Task) (t : Task) :
    countEq l t = 0 ↔ ∀ x ∈ l, taskEq x t = false := by
  unfold countEq
  rw [List.length_eq_zero, List.filter_eq_nil_iff]
  simp

lemma countEq_one_mem_eq {l : List Task} {v x y : Task}
    (h : countEq l v = 1) (hx : x ∈ l) (hpx : taskEq x v = true)
    (hy : y ∈ l) (hpy : taskEq y v = true) : x = y := by
  obtain ⟨a, ha⟩ := List.length_eq_one.mp h
  have hx' : x ∈ l.filter (fun z => taskEq z v) := List.mem_filter.mpr ⟨hx, hpx⟩
  have hy' : y ∈ l.filter (fun z => taskEq z v) := List.mem_filter.mpr ⟨hy, hpy⟩
  rw [ha, List.mem_singleton] at hx' hy'
  rw [hx', hy']

lemma pyRemove_cons_neg {x : Task} {xs : List Task} {v : Task}
    (hx : ¬ taskEq x v = true) :
    pyRemove (x :: xs) v = (pyRemove xs v).map (x :: ·) := by
  simp [pyRemove, hx]

lemma pyRemove_eq (l : List Task) (v : Task) :
    pyRemove l v =
      if l.any (fun x => taskEq x v) then
        some (l.eraseP (fun x => taskEq x v))
      else none := by
  induction l with
  | nil => rfl
  | cons x xs ih =>
    by_cases h : taskEq x v
    · simp [pyRemove, h, List.eraseP_cons, List.any_cons]
    · have hb : taskEq x v = false := by rwa [Bool.not_eq_true] at h
      rw [pyRemove_cons_neg h, ih, List.any_cons, List.eraseP_cons, hb]
      simp only [Bool.false_or, cond_false]
      by_cases hxs : xs.any (fun y => taskEq y v) = true
      · rw [if_pos hxs, if_pos hxs, Option.map_some']
      · rw [if_neg hxs, if_neg hxs, Option.map_none']

lemma pyRemove_length {l : List Task} {v : Task} {m : List Task}
    (h : pyRemove l v = some m) : m.length + 1 = l.length := by
  induction l generalizing m with
  | nil => exact absurd h (by simp [pyRemove])
  | cons x xs ih =>
    by_cases hx : taskEq x v
    · simp only [pyRemove, hx, if_pos, Option.some_inj] at h
      simp [← h]
    · rw [pyRemove_cons_neg hx] at h
      cases hr : pyRemove xs v with
      | none => rw [hr, Option.map_none'] at h; cases h
      | some m' =>
        rw [hr, Option.map_some', Option.some_inj] at h
        subst h
        simp [← ih hr]

lemma pyRemove_mem {l : List Task} {v : Task} {m : List Task}
    (h : pyRemove l v = some m) {x : Task} (hx : x ∈ l)
    (hne : taskEq x v = false) : x ∈ m := by
  induction l generalizing m with
  | nil => cases hx
  | cons y ys ih =>
    by_cases hy : taskEq y v
    · simp only [pyRemove, hy, if_pos, Option.some_inj] at h
      subst h
      rcases List.mem_cons.mp hx with rfl | hx'
      · rw [hy] at hne; cases hne
      · exact hx'
    · rw [pyRemove_cons_neg hy] at h
      cases hr : pyRemove ys v with
      | none => rw [hr, Option.map_none'] at h; cases h
      | some m' =>
        rw [hr, Option.map_some', Option.some_inj] at h
        subst h
        rcases List.mem_cons.mp hx with rfl | hx'
        · exact List.mem_cons_self x m'
        · exact List.mem_cons_of_mem y (ih hr hx')

/-- One remove-then-append step preserves how many records there are of
every task's equality class. -/
lemma countEq_remove_append {l : List Task} {u : Task} {m : List Task}
    (h : pyRemove l u = some m) (t : Task) :
    countEq (m ++ [u]) t = countEq l t := by
  induction l generalizing m with
  | nil => exact absurd h (by simp [pyRemove])
  | cons x xs ih =>
    by_cases hx : taskEq x u
    · simp only [pyRemove, hx, if_pos, Option.some_inj] at h
      subst h
      rw [countEq_append, countEq_cons, countEq_cons, countEq_nil,
        taskEq_eqv_left (taskEq_symm hx) t]
      omega
    · rw [pyRemove_cons_neg hx] at h
      cases hr : pyRemove xs u with
      | none => rw [hr, Option.map_none'] at h; cases h
      | some m' =>
        rw [hr, Option.map_some', Option.some_inj] at h
        subst h
        rw [List.cons_append, countEq_cons, countEq_cons, ih hr]

lemma reconcile_cons (l : List Task) (u : Task) (us : List Task) :
    reconcile l (u :: us) =
      match pyRemove l u with
      | none => none
      | some m => reconcile (m ++ [u]) us := rfl

/-- A successful Reconcile preserves the size of the equality class of
every task. -/
lemma reconcile_counts {us l l' : List Task}
    (h : reconcile l us = some l') (t : Task) :
    countEq l' t = countEq l t := by
  induction us generalizing l with
  | nil =>
    simp only [reconcile, Option.some_inj] at h
    rw [h]
  | cons u us' ih =>
    rw [reconcile_cons] at h
    cases hr : pyRemove l u with
    | none => rw [hr] at h; cases h
    | some m =>
      rw [hr] at h
      rw [ih h, countEq_remove_append hr]

/-- A successful Reconcile preserves the master list's length. -/
lemma reconcile_length {us l l' : List Task}
    (h : reconcile l us = some l') : l'.length = l.length := by
  induction us generalizing l with
  | nil =>
    simp only [reconcile, Option.some_inj] at h
    rw [h]
  | cons u us' ih =>
    rw [reconcile_cons] at h
    cases hr : pyRemove l u with
    | none => rw [hr] at h; cases h
    | some m =>
      rw [hr] at h
      have := pyRemove_length hr
      rw [ih h]
      simp
      omega

lemma countEq_pos_any {l : List Task} {u : Task} (h : 1 ≤ countEq l u) :
    l.any (fun x => taskEq x u) = true := by
  unfold countEq at h
  have hne : l.filter (fun x => taskEq x u) ≠ [] := by
    intro hnil
    rw [hnil] at h
    exact absurd h (by simp)
  obtain ⟨x, hx⟩ := List.exists_mem_of_ne_nil _ hne
  obtain ⟨hxl, hxp⟩ := List.mem_filter.mp hx
  exact List.any_eq_true.mpr ⟨x, hxl, hxp⟩

/-- Reconcile succeeds when each updated record still has a match in the
master list. -/
lemma reconcile_some {us l : List Task}
    (h : ∀ u ∈ us, 1 ≤ countEq l u) : ∃ l', reconcile l us = some l' := by
  induction us generalizing l with
  | nil => exact ⟨l, rfl⟩
  | cons u us' ih =>
    have hany := countEq_pos_any (h u (List.mem_cons_self u us'))
    have hrem : pyRemove l u = some (l.eraseP (fun x => taskEq x u)) := by
      rw [pyRemove_eq, if_pos hany]
    have h2 : ∀ v ∈ us', 1 ≤ countEq (l.eraseP (fun x => taskEq x u) ++ [u]) v := by
      intro v hv
      rw [countEq_remove_append hrem v]
      exact h v (List.mem_cons_of_mem u hv)
    obtain ⟨l', hl'⟩ := ih h2
    refine ⟨l', ?_⟩
    rw [reconcile_cons, hrem]
    exact hl'

/-- A record that matches none of the updated records survives Reconcile. -/
lemma reconcile_mem {us l l' : List Task}
    (h : reconcile l us = some l') {x : Task} (hx : x ∈ l)
    (hne : ∀ u ∈ us, taskEq x u = false) : x ∈ l' := by
  induction us generalizing l with
  | nil =>
    simp only [reconcile, Option.some_inj] at h
    rw [← h]
    exact hx
  | cons u us' ih =>
    rw [reconcile_cons] at h
    cases hr : pyRemove l u with
    | none => rw [hr] at h; cases h
    | some m =>
      rw [hr] at h
      have hxm : x ∈ m := pyRemove_mem hr hx (hne u (List.mem_cons_self u us'))
      exact ih h (List.mem_append_left [u] hxm)
        (fun v hv => hne v (List.mem_cons_of_mem u hv))

lemma reconcile_append (l : List Task) (a b : List Task) :
    reconcile l (a ++ b) = (reconcile l a).bind (fun l2 => reconcile l2 b) := by
  induction a generalizing l with
  | nil => rfl
  | cons u a' ih =>
    rw [List.cons_append, reconcile_cons, reconcile_cons]
    cases pyRemove l u with
    | none => rfl
    | some m => exact ih (m ++ [u])

/-- A list whose `taskEq`-class of `t` has exactly one member splits around
that member, with class-free parts on both sides. -/
lemma countEq_one_split {us : List Task} {t : Task} (h : countEq us t = 1) :
    ∃ us₁ uStar us₂, us = us₁ ++ uStar :: us₂ ∧ taskEq uStar t = true ∧
      (∀ u ∈ us₁, taskEq u t = false) ∧ (∀ u ∈ us₂, taskEq u t = false) := by
  induction us with
  | nil => simp [countEq_nil] at h
  | cons u rest ih =>
    rw [countEq_cons] at h
    by_cases hu : taskEq u t
    · rw [if_pos hu] at h
      have h0 : countEq rest t = 0 := by omega
      refine ⟨[], u, rest, by simp, hu, by simp, ?_⟩
      exact (countEq_zero_iff rest t).mp h0
    · rw [if_neg hu] at h
      obtain ⟨us₁, uStar, us₂, heq, hstar, h1, h2⟩ := ih (by omega)
      refine ⟨u :: us₁, uStar, us₂, by rw [heq]; rfl, hstar, ?_, h2⟩
      intro v hv
      rcases List.mem_cons.mp hv with rfl | hv'
      · rwa [Bool.not_eq_true] at hu
      · exact h1 v hv'

/-- The Select phase picks a sublist of the master list. -/
lemma selectActive_sublist {l : List Task} {now : Nat} {act : List Task}
    (h : selectActive l now = some act) : act.Sublist l := by
  induction l generalizing act with
  | nil =>
    have h' : ([] : List Task) = act := Option.some_inj.mp h
    rw [← h']
  | cons t ts ih =>
    simp only [selectActive, Option.bind_eq_bind, Option.bind_eq_some] at h
    obtain ⟨b, hb, rest, hrest, hact⟩ := h
    have hact' : (if b = true then t :: rest else rest) = act := by
      simpa using hact
    subst hact'
    by_cases hbv : b = true
    · rw [if_pos hbv]
      exact (ih hrest).cons₂ t
    · rw [if_neg hbv]
      exact (ih hrest).cons t

/-- A command that ran to completion — whatever its exit status — never
raises; `last_execution` is stamped with the completion instant. -/
lemma run_task_completed (task : Task) (c : Int) (o e : String) (execT : Nat) :
    run_task task (CmdResult.completed c o e) execT =
      Except.ok { task with last_execution := some execT } := rfl

/-- When every selected task's command runs to completion, Dispatch returns
the selected tasks in order with only `last_execution` re-stamped. -/
lemma dispatch_eq {act : List Task} {res : Task → CmdResult}
    {execOf : Task → Nat}
    (h : ∀ t ∈ act, ∃ c o e, res t = CmdResult.completed c o e) :
    dispatch act res execOf =
      some (act.map (fun t => { t with last_execution := some (execOf t) })) := by
  induction act with
  | nil => rfl
  | cons t ts ih =>
    obtain ⟨c, o, e, hres⟩ := h t (List.mem_cons_self t ts)
    have ihv := ih (fun v hv => h v (List.mem_cons_of_mem t hv))
    simp only [dispatch, hres, run_task_completed, Except.toOption,
      Option.bind_eq_bind, Option.some_bind, ihv, List.map_cons]
    rfl

/-- Re-stamping `last_execution` does not change any `taskEq`-class count. -/
lemma countEq_map_stamp (l : List Task) (f : Task → Option Nat) (t : Task) :
    countEq (l.map (fun x => { x with last_execution := f x })) t
      = countEq l t := by
  induction l with
  | nil => rfl
  | cons x xs ih =>
    rw [List.map_cons, countEq_cons, countEq_cons, ih, taskEq_set_last]

lemma getD_map_range {α : Type} (n : Nat) (f : Nat → α) (i : Nat) (d : α)
    (h : i < n) : ((List.range n).map f).getD i d = f i := by
  rw [List.getD_eq_getElem?_getD, List.getElem?_map, List.getElem?_range h]
  rfl

/-- On a full 14-character pattern, the parsed mask has seven entries and
entry `i` compares slice `i` with `DATES[i]`. -/
lemma mkDays_of_length14 {p : String} (hp : p.length = 14) :
    mkDays p =
      some ((List.range 7).map (fun i => chunk2 p i == DATES.getD i "")) := by
  unfold mkDays
  rw [hp]
  rw [if_pos (by simp [DATES])]
  refine congrArg some ?_
  rw [List.length_map, List.length_range]
  refine List.map_congr_left (fun i hi => ?_)
  rw [List.mem_range] at hi
  rw [getD_map_range _ _ _ _ hi]

/-! ### Sample records used by concrete witnesses -/

/-- A task active all week, all day. -/
def tAllDay : Task :=
  ⟨"ls", "zt", "motuwethfrsasu", "00:00", "23:59", "06:00", none⟩

/-- A second, definitionally distinct task. -/
def tOther : Task :=
  ⟨"echo b", "zt", "motuwethfrsasu", "00:00", "23:59", "06:00", none⟩

/-- A task whose window is 10:00–11:00. -/
def tMorning : Task :=
  ⟨"ls", "zt", "motuwethfrsasu", "10:00", "11:00", "06:00", none⟩

/-- A task that last ran at instant 10000 (Monday 02:46:40). -/
def tRanBefore : Task :=
  ⟨"ls", "zt", "motuwethfrsasu", "09:00", "17:00", "06:00", some 10000⟩

/-- A task whose day pattern is only two characters long. -/
def tShortDays : Task :=
  ⟨"ls", "zt", "mo", "00:00", "23:59", "00:00", none⟩

/-! ### Claims -/

/-- C2: for every 14-character day pattern, the parsed mask is seven entries
long and `active[i]` is true exactly when the two-character slice at
position `2*i` equals the canonical abbreviation `DATES[i]`. -/
theorem C2_day_mask (p : String) (i : Nat) (hp : p.length = 14) (hi : i < 7) :
    ∃ mask, mkDays p = some mask ∧ mask.length = 7 ∧
      is_active_on mask i = some (chunk2 p i == DATES.getD i "") ∧
      (is_active_on mask i = some true ↔ chunk2 p i = DATES.getD i "") := by
  refine ⟨_, mkDays_of_length14 hp, by simp, ?_, ?_⟩
  · unfold is_active_on
    rw [List.getElem?_map, List.getElem?_range hi]
    rfl
  · unfold is_active_on
    rw [List.getElem?_map, List.getElem?_range hi]
    simp

/-- C2 witness: `"mo--we--frsasu"` is active on Wednesday (index 2), and the
all-placeholder pattern parses to an all-false mask. -/
theorem C2_day_mask_witness :
    (∃ mask, mkDays "mo--we--frsasu" = some mask ∧ mask.length = 7 ∧
      is_active_on mask 2 = some (chunk2 "mo--we--frsasu" 2 == DATES.getD 2 "") ∧
      (is_active_on mask 2 = some true ↔
        chunk2 "mo--we--frsasu" 2 = DATES.getD 2 "")) ∧
    mkDays "mo--we--frsasu" =
      some [true, false, true, false, true, true, true] ∧
    mkDays "--------------" =
      some [false, false, false, false, false, false, false] :=
  ⟨C2_day_mask "mo--we--frsasu" 2 (by decide) (by decide), by decide, by decide⟩

/-- C3: `Task.__eq__` holds exactly when the six definitional fields agree,
and a record equals any relabelling of its own `last_execution`. -/
theorem C3_task_equality :
    (∀ a b : Task, taskEq a b = true ↔
      a.command = b.command ∧ a.owner = b.owner ∧ a.days = b.days ∧
      a.time_start = b.time_start ∧ a.time_end = b.time_end ∧
      a.reload_time = b.reload_time) ∧
    (∀ (a : Task) (le : Option Nat),
      taskEq { a with last_execution := le } a = true) :=
  ⟨fun a b => taskEq_iff a b,
   fun a le => by rw [taskEq_set_last]; exact taskEq_refl a⟩

/-- C3 witness: two concrete records that differ only in `last_execution`
are equal. -/
theorem C3_task_equality_witness :
    taskEq { tAllDay with last_execution := some 5 } tAllDay = true :=
  C3_task_equality.2 tAllDay (some 5)

/-- C5: a command that completes with any exit status — zero or not — never
raises; the returned record has `last_execution` stamped with the completion
instant (so a failing task still starts its cooldown). -/
theorem C5_nonzero_exit_is_normal (task : Task) (code : Int) (out err : String)
    (execT : Nat) :
    run_task task (CmdResult.completed code out err) execT =
      Except.ok { task with last_execution := some execT } :=
  run_task_completed task code out err execT

/-- C7 (refuting the claimed behaviour): on a two-character pattern the
parsed mask has a single entry, and evaluating the activation predicate on a
Tuesday (weekday 1, beyond the mask) raises IndexError — modelled `none` —
instead of returning `false`. -/
theorem C7_short_mask_raises :
    mkDays "mo" = some [true] ∧ weekday 129600 = 1 ∧
    is_active_on [true] 1 = none ∧
    is_active_now tShortDays 129600 129600 129600 129600 129600 = none := by
  decide

/-- C9 counterexample: the source reads the clock five times, so two
evaluations whose first reading is the same instant (Monday 10:30) disagree
when the window-comparison reading differs (10:30 vs 11:01) — the result is
not a function of a single reference instant. -/
theorem C9_counterexample :
    is_active_now tMorning 37800 37800 37800 37800 37800 = some true ∧
    is_active_now tMorning 37800 37800 37800 37800 39660 = some false := by
  decide

/-- C9 (amended): the predicate mutates nothing, and when all five clock
readings coincide at one instant `now` it is a deterministic function of the
record and `now`, agreeing with the spec's single-instant predicate. -/
theorem C9_single_instant_agreement (task : Task) (now : Nat) :
    is_active_now task now now now now now = activeSpec task now := by
  rcases hm : mkDays task.days with _ | mask <;>
    rcases hs : parseHM task.time_start with _ | s <;>
      rcases he : parseHM task.time_end with _ | e <;>
        simp [is_active_now, activeSpec, hm, hs, he] <;>
          rcases hl : task.last_execution with _ | le <;>
            rcases hc : reloadSeconds task.reload_time with _ | c <;>
              simp [hl, hc] <;>
                cases is_active_on mask (weekday now) <;>
                  simp [Bool.and_assoc]

/-- C10: reconciling a dispatched task removes the first master-list record
equal to it and appends the updated record at the end, so the executed task
moves to the end of the ordered task list. -/
theorem C10_reconcile_append (tasks : List Task) (u : Task) (us : List Task)
    (h : ∃ x, x ∈ tasks ∧ taskEq x u = true) :
    reconcile tasks (u :: us) =
      reconcile (tasks.eraseP (fun x => taskEq x u) ++ [u]) us ∧
    reconcile tasks [u] = some (tasks.eraseP (fun x => taskEq x u) ++ [u]) ∧
    (tasks.eraseP (fun x => taskEq x u) ++ [u]).getLast? = some u := by
  obtain ⟨x, hx, hpx⟩ := h
  have hany : tasks.any (fun y => taskEq y u) = true :=
    List.any_eq_true.mpr ⟨x, hx, hpx⟩
  have hrem : pyRemove tasks u = some (tasks.eraseP (fun y => taskEq y u)) := by
    rw [pyRemove_eq, if_pos hany]
  refine ⟨?_, ?_, ?_⟩
  · rw [reconcile_cons, hrem]
  · rw [reconcile_cons, hrem]
    rfl
  · exact List.getLast?_concat _

/-- C10 witness: the first-listed task, once executed, moves behind the
other task. -/
theorem C10_reconcile_append_witness :
    reconcile [tAllDay, tOther] [{ tAllDay with last_execution := some 43205 }]
      = some [tOther, { tAllDay with last_execution := some 43205 }] := by
  have h := (C10_reconcile_append [tAllDay, tOther]
    { tAllDay with last_execution := some 43205 } []
    ⟨tAllDay, by decide, by decide⟩).2.1
  rw [h]
  decide

/-- C1: with the five clock readings coinciding at the reference instant
`now`, the activation predicate returns `true` exactly when the mask is
active on `now`'s weekday, `now` lies strictly between the window instants
built from `now`'s date, and `last_execution` is absent or strictly more
than the cooldown ago. -/
theorem C1_activation_iff (task : Task) (now : Nat) (mask : List Bool)
    (sh sm eh em : Nat) (c : Int)
    (hmask : mkDays task.days = some mask)
    (hs : parseHM task.time_start = some (sh, sm))
    (he : parseHM task.time_end = some (eh, em))
    (hc : reloadSeconds task.reload_time = some c)
    (hwk : weekday now < mask.length) :
    is_active_now task now now now now now = some true ↔
      (mask.get ⟨weekday now, hwk⟩ = true ∧
       dayStart now + (sh * 3600 + sm * 60) < now ∧
       now < dayStart now + (eh * 3600 + em * 60) ∧
       (task.last_execution = none ∨
         ∃ le, task.last_execution = some le ∧ c < (now : Int) - (le : Int))) := by
  have hget : is_active_on mask (weekday now)
      = some (mask.get ⟨weekday now, hwk⟩) := by
    unfold is_active_on
    rw [List.getElem?_eq_getElem hwk]
    rfl
  cases hl : task.last_execution with
  | none =>
    simp [is_active_now, hmask, hs, he, hl, hget, Bool.and_eq_true, and_assoc]
  | some le =>
    simp [is_active_now, hmask, hs, he, hl, hc, hget, Bool.and_eq_true,
      and_assoc]

/-- C1 witness: a concrete Monday-noon evaluation of a task with a prior
execution strictly more than its cooldown ago. -/
theorem C1_activation_iff_witness :
    is_active_now tRanBefore 43200 43200 43200 43200 43200 = some true :=
  (C1_activation_iff tRanBefore 43200
      [true, true, true, true, true, true, true] 9 0 17 0 21600
      (by decide) (by decide) (by decide) (by decide) (by decide)).mpr
    ⟨by decide, by decide, by decide, Or.inr ⟨10000, rfl, by decide⟩⟩

/-- C6 (refuting the claimed behaviour): when the shell cannot be invoked,
`run_task` propagates the OSError (no updated record is produced, so the
task's `last_execution` is indeed not advanced), and the whole
Select→Dispatch→Reconcile cycle crashes — the loop does not survive to
report the error and retry the task. -/
theorem C6_launch_failure_crashes_loop :
    run_task tAllDay CmdResult.launchFailure 100 =
      Except.error SubprocessError.osError ∧
    selectActive [tAllDay] 43200 = some [tAllDay] ∧
    cycle [tAllDay] 43200 (fun _ => CmdResult.launchFailure) (fun _ => 100) =
      none :=
  ⟨rfl, by decide, by decide⟩

/-- C8: whenever `run_task` returns a record, that record agrees with its
input on all six definitional fields — `last_execution`, stamped with the
completion instant, is the only field changed — so the result is equal to
the input under `Task.__eq__`. -/
theorem C8_executor_frame (task : Task) (res : CmdResult) (execT : Nat)
    (updated : Task) (h : run_task task res execT = Except.ok updated) :
    updated.command = task.command ∧ updated.owner = task.owner ∧
    updated.days = task.days ∧ updated.time_start = task.time_start ∧
    updated.time_end = task.time_end ∧
    updated.reload_time = task.reload_time ∧
    updated.last_execution = some execT ∧ taskEq updated task = true := by
  cases res with
  | launchFailure => exact absurd h (by simp [run_task, subprocessRun])
  | completed c o e =>
    rw [run_task_completed] at h
    injection h with h
    subst h
    refine ⟨rfl, rfl, rfl, rfl, rfl, rfl, rfl, ?_⟩
    rw [taskEq_set_last]
    exact taskEq_refl task

/-- C8 witness: a concrete successful execution returns a record equal to
its input. -/
theorem C8_executor_frame_witness :
    taskEq { tAllDay with last_execution := some 999 } tAllDay = true :=
  (C8_executor_frame tAllDay (CmdResult.completed 0 "" "") 999
    { tAllDay with last_execution := some 999 } rfl).2.2.2.2.2.2.2

/-- C4: a Select→Dispatch→Reconcile cycle in which every dispatched command
runs to completion succeeds, keeps the master list's length and every
equality class's count unchanged, and for each dispatched task that has a
unique record in the master list, exactly one record of the result is that
task — now bearing the updated `last_execution`. -/
theorem C4_cycle_invariant (tasks : List Task) (now : Nat)
    (res : Task → CmdResult) (execOf : Task → Nat) (act : List Task)
    (hsel : selectActive tasks now = some act)
    (hres : ∀ t ∈ act, ∃ c o e, res t = CmdResult.completed c o e) :
    ∃ final, cycle tasks now res execOf = some final ∧
      final.length = tasks.length ∧
      (∀ t, countEq final t = countEq tasks t) ∧
      (∀ t ∈ act, countEq tasks t = 1 →
        countEq final t = 1 ∧
        ∃ u ∈ final, taskEq u t = true ∧
          u.last_execution = some (execOf t)) := by
  have hdisp := @dispatch_eq act res execOf hres
  have hsub := selectActive_sublist hsel
  set upd := act.map (fun x => { x with last_execution := some (execOf x) })
    with hupd
  have hcnt : ∀ u ∈ upd, 1 ≤ countEq tasks u := by
    intro u hu
    obtain ⟨t, ht, rfl⟩ := List.mem_map.mp hu
    have h1 : 1 ≤ countEq tasks t :=
      one_le_countEq_of_mem (hsub.subset ht) (taskEq_refl t)
    have hstamp : taskEq { t with last_execution := some (execOf t) } t = true := by
      rw [taskEq_set_last]
      exact taskEq_refl t
    rw [countEq_congr hstamp]
    exact h1
  obtain ⟨final, hrec⟩ := reconcile_some hcnt
  have hcycle : cycle tasks now res execOf = some final := by
    simp only [cycle, hsel, hdisp, Option.bind_eq_bind, Option.some_bind]
    exact hrec
  have hcounts : ∀ t, countEq final t = countEq tasks t :=
    fun t => reconcile_counts hrec t
  refine ⟨final, hcycle, reconcile_length hrec, hcounts, ?_⟩
  intro t ht hone
  have hcact : countEq act t = 1 := by
    have hle : countEq act t ≤ countEq tasks t := by
      unfold countEq
      exact (hsub.filter _).length_le
    have hge : 1 ≤ countEq act t := one_le_countEq_of_mem ht (taskEq_refl t)
    omega
  have hcupd : countEq upd t = 1 := by
    rw [hupd, countEq_map_stamp]
    exact hcact
  obtain ⟨us₁, uStar, us₂, hsplit, hstar, _, h2⟩ := countEq_one_split hcupd
  have huStar_mem : uStar ∈ upd := by
    rw [hsplit]
    exact List.mem_append_right _ (List.mem_cons_self _ _)
  obtain ⟨t', ht', hust⟩ := List.mem_map.mp (hupd ▸ huStar_mem)
  have ht'cls : taskEq t' t = true := by
    have := hstar
    rw [← hust, taskEq_set_last] at this
    exact this
  have ht'eq : t' = t :=
    countEq_one_mem_eq hone (hsub.subset ht') ht'cls (hsub.subset ht)
      (taskEq_refl t)
  have hrec2 := hrec
  rw [hsplit, reconcile_append] at hrec2
  cases hrec1 : reconcile tasks us₁ with
  | none =>
    rw [hrec1, Option.none_bind] at hrec2
    cases hrec2
  | some l2 =>
    rw [hrec1, Option.some_bind, reconcile_cons] at hrec2
    cases hrem : pyRemove l2 uStar with
    | none =>
      rw [hrem] at hrec2
      cases hrec2
    | some m =>
      rw [hrem] at hrec2
      have hmem : uStar ∈ m ++ [uStar] :=
        List.mem_append_right m (List.mem_cons_self _ _)
      have hsurv : uStar ∈ final := by
        refine reconcile_mem hrec2 hmem (fun v hv => ?_)
        by_cases hvv : taskEq uStar v = true
        · have hvt : taskEq v t = true :=
            taskEq_trans (taskEq_symm hvv) hstar
          rw [h2 v hv] at hvt
          cases hvt
        · rwa [Bool.not_eq_true] at hvv
      refine ⟨by rw [hcounts t]; exact hone, uStar, hsurv, hstar, ?_⟩
      rw [← hust, ht'eq]

/-- C4 witness: with one active task whose command completes, the cycle
returns a one-element list whose sole record bears the new
`last_execution`. -/
theorem C4_cycle_invariant_witness :
    ∃ final,
      cycle [tAllDay] 43200 (fun _ => CmdResult.completed 0 "" "")
        (fun _ => 43205) = some final ∧
      final.length = 1 ∧ countEq final tAllDay = 1 ∧
      ∃ u ∈ final, taskEq u tAllDay = true ∧
        u.last_execution = some 43205 := by
  obtain ⟨final, hcyc, hlen, _, huniq⟩ :=
    C4_cycle_invariant [tAllDay] 43200 (fun _ => CmdResult.completed 0 "" "")
      (fun _ => 43205) [tAllDay] (by decide)
      (fun t _ => ⟨0, "", "", rfl⟩)
  obtain ⟨hcount, u, hu, hequ, hle⟩ :=
    huniq tAllDay (List.mem_cons_self _ _) (by decide)
  exact ⟨final, hcyc, by simpa using hlen, hcount, u, hu, hequ, hle⟩

end CommandRunner
